import Mathlib

/-!
Verification of the diff-parsing and review-comment position-mapping
subsystem of the `gh-lazy` terminal GitHub client.

The embedding models:
* the pure helpers of `lazy_github/ui/widgets/split_diff_viewer.py`
  (`_count_changes_in_hunk`, the hunk-header regex of `_format_hunk_header`,
  the position arithmetic of `on_trigger_review_submission`, and the
  `UnifiedDiffPane` current-line state machine);
* the legacy position arithmetic of
  `lazy_github/ui/widgets/diff_viewer.py` (`DiffViewerContainer.submit_review`);
* the diff parser `lazy_github/lib/diff_parser.py`, which is imported by the
  widgets but whose source is not part of this tree; it is modelled from the
  specification (each such definition is marked `Modelled from the spec:`).

Strings are embedded as lists of characters (`Line`), which keeps every
definition executable and keeps inductive proofs elementary.
-/

/-- A raw text line of a diff, embedded as its list of characters. -/
def Line := List Char
deriving DecidableEq, Repr

instance : Append Line := ⟨List.append⟩

/-- Length of a line, in characters. -/
def Line.len (l : Line) : Nat := List.length l

/-- `headIs c l` is true when line `l` begins with the single character `c`;
this embeds Python's `line.startswith("c")` for a one-character argument
(false on the empty string, as in Python). -/
def headIs (c : Char) : Line → Bool
  | [] => false
  | x :: _ => x == c

/-- `startsWithL p l` is true when the character list `p` is an initial
segment of `l`; this embeds Python's `line.startswith(p)`. -/
def startsWithL : List Char → List Char → Bool
  | [], _ => true
  | _ :: _, [] => false
  | p :: ps, c :: cs => p == c && startsWithL ps cs

/-- The `diff --git` file-header marker (§4.1 of the spec and
`diff_parser` file-section recognition). -/
def fileHeaderMarker : List Char :=
  ['d', 'i', 'f', 'f', ' ', '-', '-', 'g', 'i', 't']

/-- The `@@` hunk-header marker. -/
def hunkMarker : List Char := ['@', '@']

/-- The `deleted file mode` marker used for deleted-file detection (§4.1). -/
def deletedFileMarker : List Char :=
  ['d', 'e', 'l', 'e', 't', 'e', 'd', ' ', 'f', 'i', 'l', 'e', ' ',
   'm', 'o', 'd', 'e']

/-- The `--- ` old-path metadata marker of a file section. -/
def oldPathMarker : List Char := ['-', '-', '-', ' ']

/-- The `+++ ` new-path metadata marker of a file section. -/
def newPathMarker : List Char := ['+', '+', '+', ' ']

/-- A line starting a file section. -/
def isFileHeader (l : Line) : Bool := startsWithL fileHeaderMarker l

/-- A hunk content line: prefixed with `+` (addition), `-` (deletion) or
a space (context), exactly the three prefixes retained in `Hunk.lines`. -/
def isHunkContent (l : Line) : Bool :=
  headIs '+' l || headIs '-' l || headIs ' ' l

/-- Splits a character stream into lines at `'\n'`, embedding the line
structure of the raw diff text. -/
def splitLines : List Char → List Line
  | [] => [[]]
  | c :: rest =>
    if c = '\n' then [] :: splitLines rest
    else
      match splitLines rest with
      | [] => [[c]]
      | l :: ls => (c :: l) :: ls

/-- Numeric value of a digit run, as Python's `int()` of the captured
group of the hunk-header regex. -/
def digitsVal (ds : List Char) : Nat :=
  ds.foldl (fun n c => n * 10 + (c.toNat - 48)) 0

/-- Parses a leading nonempty digit run (regex `\d+`): returns its value
and the remaining characters, or `none` when no digit is present. -/
def parseNatDigits (l : List Char) : Option (Nat × List Char) :=
  let ds := l.takeWhile Char.isDigit
  if ds.isEmpty then none else some (digitsVal ds, l.drop ds.length)

/-- Drops the exact character sequence `p` from the front of `l`, or fails. -/
def dropExact (p : List Char) (l : List Char) : Option (List Char) :=
  if startsWithL p l then some (l.drop p.length) else none

/-- Matches a hunk-header line against the pattern
`@@ -<old_start>[,<old_count>] +<new_start>[,<new_count>] @@<optional context>`,
embedding the regex
`@@ -(\d+)(?:,(\d+))? \+(\d+)(?:,(\d+))? @@\s*(.*)` of
`_format_hunk_header` (split_diff_viewer.py:81).  A missing count defaults
to `1`.  Returns `(old_start, old_count, new_start, new_count, context)`. -/
def parseHunkHeader (l : Line) : Option (Nat × Nat × Nat × Nat × Line) := do
  let r ← dropExact ['@', '@', ' ', '-'] l
  let (os, r) ← parseNatDigits r
  let (oc, r) ←
    match r with
    | ',' :: r2 => parseNatDigits r2
    | _ => some (1, r)
  let r ← dropExact [' ', '+'] r
  let (ns, r) ← parseNatDigits r
  let (nc, r) ←
    match r with
    | ',' :: r2 => parseNatDigits r2
    | _ => some (1, r)
  let r ← dropExact [' ', '@', '@'] r
  some (os, oc, ns, nc, r.dropWhile Char.isWhitespace)

/-- A hunk of a parsed diff (the `Hunk` dataclass of
`lazy_github/lib/diff_parser.py`, fields per §3 of the spec):
the raw `@@` header line, the first line number of the hunk in the new
file, the 0-based offset of the hunk's first content line within the whole
raw diff text, and the raw content lines with their prefix characters. -/
structure Hunk where
  header : Line
  file_start_line : Nat
  diff_position : Nat
  lines : List Line
deriving DecidableEq, Repr

/-- A changed file of a parsed diff (the `ChangedFile` of
`lazy_github/lib/diff_parser.py`, fields per §3 of the spec). -/
structure ChangedFile where
  path : Line
  deleted : Bool
  hunks : List Hunk
deriving DecidableEq, Repr

/-- A parsed diff: the ordered collection of changed files (§3, §6). -/
structure Diff where
  files : List ChangedFile
deriving DecidableEq, Repr

/-- The parse failure of §4.1/§7, with one constructor per failure
condition listed there. -/
inductive InvalidDiffFormat where
  | noFileHeader
  | badHunkHeader
  | hunkLinesBeforeHunkHeader
deriving DecidableEq, Repr

/-- Modelled from the spec: path extraction of §4.1 for the missing
`lazy_github/lib/diff_parser.py` — "each section's path is extracted from
the header line, preferring the `b/` (new) path".  The last
space-separated token of the `diff --git a/X b/Y` line is taken and its
`b/` marker is dropped. -/
def extractPath (hdr : Line) : Line :=
  let tok : List Char := (hdr.reverse.takeWhile (fun c => !(c == ' '))).reverse
  if startsWithL ['b', '/'] tok then tok.drop 2 else tok

/-- Accumulating pass of the file-section splitter: `start` and `acc` are
the raw-line index of the section currently open and its lines so far
(its head is always a `diff --git` line); `n` is the raw index of the
next line of `ls`. -/
def splitGo (n : Nat) (ls : List Line) (start : Nat) (acc : List Line) :
    List (Nat × List Line) :=
  match ls with
  | [] => [(start, acc)]
  | l :: rest =>
    if isFileHeader l then (start, acc) :: splitGo (n + 1) rest n [l]
    else splitGo (n + 1) rest start (acc ++ [l])

/-- Modelled from the spec: the file-section split of §4.1 for the missing
`lazy_github/lib/diff_parser.py` — "splits the input into per-file
sections by recognizing lines beginning with the file-header marker
(`diff --git a/... b/...`)".  Each section carries the raw-line index of
its `diff --git` line; material before the first file header is not part
of any section. -/
def splitSections (n : Nat) (ls : List Line) : List (Nat × List Line) :=
  match ls with
  | [] => []
  | l :: rest =>
    if isFileHeader l then splitGo (n + 1) rest n [l]
    else splitSections (n + 1) rest

/-- Modelled from the spec: the in-hunk state of the missing parser
(§4.1).  `n` is the raw-line index of the head of `ls` and `cur` the hunk
under construction.  A line matching the hunk-header pattern closes `cur`
and opens a new hunk whose `diff_position` is the count of raw lines up to
and including its header (`n + 1`); a line starting `@@` that does not
match fails with `InvalidDiffFormat`; a `+`/`-`/space line is retained
verbatim in `cur.lines`; any other line (e.g. `\ No newline at end of
file`) is skipped. -/
def parseHunks (n : Nat) (ls : List Line) (cur : Hunk) :
    Except InvalidDiffFormat (List Hunk) :=
  match ls with
  | [] => .ok [cur]
  | l :: rest =>
    if startsWithL hunkMarker l then
      match parseHunkHeader l with
      | none => .error .badHunkHeader
      | some (_, _, ns, _, _) =>
        Except.map (fun hs => cur :: hs)
          (parseHunks (n + 1) rest ⟨l, ns, n + 1, []⟩)
    else if isHunkContent l then
      parseHunks (n + 1) rest { cur with lines := cur.lines ++ [l] }
    else parseHunks (n + 1) rest cur

/-- Modelled from the spec: the pre-hunk (metadata) state of the missing
parser (§4.1), scanning a file-section body until its first hunk header.
`deleted` is detected from a `deleted file mode` line (the spec's
alternative all-removal detection is not exercised by any claim and is
not modelled); `--- `/`+++ ` old/new-path lines are file metadata; a
`+`/`-`/space hunk line seen before any hunk header fails with
`InvalidDiffFormat`; other metadata lines (e.g. `index ...`) are
skipped. -/
def parseMeta (n : Nat) (ls : List Line) (deleted : Bool) :
    Except InvalidDiffFormat (Bool × List Hunk) :=
  match ls with
  | [] => .ok (deleted, [])
  | l :: rest =>
    if startsWithL hunkMarker l then
      match parseHunkHeader l with
      | none => .error .badHunkHeader
      | some (_, _, ns, _, _) =>
        Except.map (fun hs => (deleted, hs))
          (parseHunks (n + 1) rest ⟨l, ns, n + 1, []⟩)
    else if startsWithL deletedFileMarker l then parseMeta (n + 1) rest true
    else if startsWithL oldPathMarker l || startsWithL newPathMarker l then
      parseMeta (n + 1) rest deleted
    else if isHunkContent l then .error .hunkLinesBeforeHunkHeader
    else parseMeta (n + 1) rest deleted

/-- Modelled from the spec: parsing of one file section of the missing
parser (§4.1).  The section's head is its `diff --git` line (`n` its raw
index), from which the path is extracted; the body yields the deleted flag
and the hunks. -/
def parseSection : Nat × List Line → Except InvalidDiffFormat ChangedFile
  | (_, []) => .error .noFileHeader
  | (n, hdr :: body) =>
    Except.map (fun p => ⟨extractPath hdr, p.1, p.2⟩) (parseMeta (n + 1) body false)

/-- Parses every file section in order, propagating the first failure. -/
def mapSections : List (Nat × List Line) →
    Except InvalidDiffFormat (List ChangedFile)
  | [] => .ok []
  | s :: rest =>
    match parseSection s with
    | .error e => .error e
    | .ok f =>
      match mapSections rest with
      | .error e => .error e
      | .ok fs => .ok (f :: fs)

/-- Modelled from the spec: `parse` of §4.1 for the missing
`lazy_github/lib/diff_parser.py`, over the raw diff's list of lines.
An input with no recognizable file header fails with
`InvalidDiffFormat`. -/
def parseDiff (input : List Line) : Except InvalidDiffFormat Diff :=
  let secs := splitSections 0 input
  if secs.isEmpty then .error .noFileHeader
  else Except.map Diff.mk (mapSections secs)

/-- Modelled from the spec: `parse_diff_from_str` of the missing
`lazy_github/lib/diff_parser.py` — the §4.1 parser applied to the raw
diff text split into lines. -/
def parse_diff_from_str (s : String) : Except InvalidDiffFormat Diff :=
  parseDiff (splitLines s.data)

/-- Accumulating loop of `_count_changes_in_hunk`
(split_diff_viewer.py:28): additions and deletions counted over the
lines, `+` first, `elif` `-`. -/
def count_changes_go : List Line → Nat → Nat → Nat × Nat
  | [], a, d => (a, d)
  | l :: rest, a, d =>
    if headIs '+' l then count_changes_go rest (a + 1) d
    else if headIs '-' l then count_changes_go rest a (d + 1)
    else count_changes_go rest a d

/-- `_count_changes_in_hunk` (split_diff_viewer.py:28-40): returns
`(additions, deletions)` of a hunk's lines. -/
def count_changes_in_hunk (h : Hunk) : Nat × Nat :=
  count_changes_go h.lines 0 0

/-- The position arithmetic of
`SplitDiffViewer.on_trigger_review_submission`
(split_diff_viewer.py:819): `position = hunk.diff_position +
comment_data.line_number + 1`, submitted verbatim to the hosting API. -/
def submission_position (h : Hunk) (line_number : Int) : Int :=
  (h.diff_position : Int) + line_number + 1

/-- `CommentData` (split_diff_viewer.py:365-380): one pending review
comment of the newer review path. -/
structure CommentData where
  hunk : Hunk
  filename : Line
  line_number : Int
  line_text : Line
  comment_text : Line
deriving DecidableEq, Repr

/-- One entry of the `comments` request body built by
`on_trigger_review_submission` (split_diff_viewer.py:821-827). -/
structure ReviewCommentPayload where
  path : Line
  body : Line
  position : Int
deriving DecidableEq, Repr

/-- The comment-collection loop of `on_trigger_review_submission`
(split_diff_viewer.py:816-827): each pending comment becomes a payload
whose position is `hunk.diff_position + line_number + 1`. -/
def build_review_comments (pending : List CommentData) :
    List ReviewCommentPayload :=
  pending.map (fun c =>
    ⟨c.filename, c.comment_text, submission_position c.hunk c.line_number⟩)

/-- The failure of the §4.2 review-comment position mapper. -/
inductive OutOfRangeLine where
  | outOfRange
deriving DecidableEq, Repr

/-- Modelled from the spec: `comment_position` of §4.2, absent from the
in-tree code (split_diff_viewer.py computes the same formula inline with
no guard) — returns the 1-based position `hunk.diff_position +
line_index_within_hunk + 1`, failing with `OutOfRangeLine` when the index
is negative or not below `len(hunk.lines)`. -/
def comment_position (h : Hunk) (i : Int) : Except OutOfRangeLine Int :=
  if i < 0 ∨ (h.lines.length : Int) ≤ i then .error .outOfRange
  else .ok ((h.diff_position : Int) + i + 1)

/-- `HunkSide` (diff_viewer.py:20-22): which side of the legacy split view
a comment was made on. -/
inductive HunkSide where
  | BEFORE
  | AFTER
deriving DecidableEq, Repr

/-- The position arithmetic of the legacy review path,
`DiffViewerContainer.submit_review` (diff_viewer.py:261-267):
`hunk.source_start + selection_start + 1` for the BEFORE side and
`hunk.target_start + selection_start + 1` for the AFTER side, where
`source_start`/`target_start` are the old/new start line numbers of the
hunk's `@@` header (the `unidiff` library's fields). -/
def legacy_review_position (side : HunkSide) (source_start target_start : Nat)
    (selection_start : Int) : Int :=
  match side with
  | .BEFORE => (source_start : Int) + selection_start + 1
  | .AFTER => (target_start : Int) + selection_start + 1

/-- `UnifiedDiffPane.action_line_down` (split_diff_viewer.py:334-339):
advances the reactive `current_line` when strictly below the last index. -/
def action_line_down (len : Nat) (cl : Int) : Int :=
  if cl < (len : Int) - 1 then cl + 1 else cl

/-- `UnifiedDiffPane.action_line_up` (split_diff_viewer.py:341-346):
moves `current_line` back when strictly positive. -/
def action_line_up (cl : Int) : Int :=
  if 0 < cl then cl - 1 else cl

/-- `UnifiedDiffPane.watch_scroll_y` (split_diff_viewer.py:327-332):
adopts the estimated line `int(new_value)` (abstracted here as an
arbitrary integer `est`) only when it lies within `[0, len)`. -/
def watch_scroll_y_update (len : Nat) (cl : Int) (est : Int) : Int :=
  if 0 ≤ est ∧ est < (len : Int) then est else cl

/-- One user-driven update of a `UnifiedDiffPane`'s `current_line`. -/
inductive PaneEvent where
  | down
  | up
  | scroll (est : Int)
deriving DecidableEq, Repr

/-- Dispatch of one pane event to the corresponding handler. -/
def pane_step (len : Nat) (cl : Int) : PaneEvent → Int
  | .down => action_line_down len cl
  | .up => action_line_up cl
  | .scroll est => watch_scroll_y_update len cl est

/-- The `current_line` of a `UnifiedDiffPane` after a sequence of events,
starting from the initial reactive value `0`
(split_diff_viewer.py:175). -/
def run_pane (len : Nat) (evs : List PaneEvent) : Int :=
  evs.foldl (pane_step len) 0

/-- The line number carried by the `TriggerAddComment` message posted by
`UnifiedDiffPane.action_add_comment` (split_diff_viewer.py:348-358): the
pane's `current_line`, unconditionally. -/
def action_add_comment_line_number (cl : Int) : Int := cl

/-- A hunk whose header matches the pattern, with the new-file start it
declares: what §4.1 requires of every hunk the parser produces. -/
def HunkWF (h : Hunk) : Prop :=
  ∃ os oc ns nc ctx, parseHunkHeader h.header = some (os, oc, ns, nc, ctx) ∧
    h.file_start_line = ns

/-- A stray hunk line: content-prefixed but not the `--- `/`+++ `
file metadata — the kind of line §4.1 forbids before a file section's
first hunk header. -/
def isStray (l : Line) : Bool :=
  isHunkContent l && !startsWithL oldPathMarker l && !startsWithL newPathMarker l

/-- A file section contains a stray hunk line before its first hunk
header (§4.1's third failure condition). -/
def strayBefore : List Line → Prop
  | [] => False
  | l :: rest =>
    if startsWithL hunkMarker l then False
    else if isStray l then True
    else strayBefore rest

/-- A file section contains a line that announces a hunk header (`@@`)
but does not match the expected pattern (§4.1's second failure
condition). -/
def badHunkIn (ls : List Line) : Prop :=
  ∃ l ∈ ls, startsWithL hunkMarker l = true ∧ parseHunkHeader l = none

/-- The parser rejects the input (with `InvalidDiffFormat`, the only
failure it has). -/
def parseFails (input : List Line) : Prop :=
  ∃ e, parseDiff input = .error e

/-- Positions of consecutive hunks never overlap: each hunk's
`diff_position` plus its line count stays below the next hunk's
`diff_position`. -/
def PosChain : List Hunk → Prop
  | [] => True
  | [_] => True
  | a :: b :: t =>
    a.diff_position + a.lines.length < b.diff_position ∧ PosChain (b :: t)

/-- Total number of content lines across all hunks of all files of a
parsed diff. -/
def totalHunkLines (d : Diff) : Nat :=
  (d.files.map (fun f => (f.hunks.map (fun h => h.lines.length)).sum)).sum

/-- Number of `+`/`-`/space-prefixed lines of a file section that lie
after the section's first hunk-header line. -/
def postHeaderContent : List Line → Nat
  | [] => 0
  | l :: rest =>
    if startsWithL hunkMarker l then rest.countP isHunkContent
    else postHeaderContent rest

/-- Sum of `postHeaderContent` over the file sections of an input. -/
def sectionContentCount (secs : List (Nat × List Line)) : Nat :=
  (secs.map (fun s => postHeaderContent s.2)).sum

/-- The concrete five-content-line diff of §8.6 of the spec. -/
def diff86Str : String :=
  "diff --git a/foo.py b/foo.py\nindex abc..def 100644\n--- a/foo.py\n+++ b/foo.py\n@@ -1,3 +1,4 @@\n def f():\n-    return 1\n+    return 2\n+    # comment"

/-- The hunk the §8.6 diff parses to: header at raw 0-based line 4, so
`diff_position = 5`. -/
def hunk86 : Hunk :=
  ⟨"@@ -1,3 +1,4 @@".data, 1, 5,
   [" def f():".data, "-    return 1".data, "+    return 2".data,
    "+    # comment".data]⟩

/-- The single changed file the §8.6 diff parses to. -/
def file86 : ChangedFile := ⟨"foo.py".data, false, [hunk86]⟩

/-- A two-hunk, one-file diff used to exercise position monotonicity. -/
def twoHunkStr : String :=
  "diff --git a/x.py b/x.py\n--- a/x.py\n+++ b/x.py\n@@ -1,2 +1,2 @@\n a\n-b\n+c\n@@ -10,2 +10,2 @@\n d\n+e"

/-- First hunk of `twoHunkStr`: header at raw line 3, three content
lines. -/
def twoHunkH0 : Hunk :=
  ⟨"@@ -1,2 +1,2 @@".data, 1, 4, [" a".data, "-b".data, "+c".data]⟩

/-- Second hunk of `twoHunkStr`: header at raw line 7, two content
lines. -/
def twoHunkH1 : Hunk :=
  ⟨"@@ -10,2 +10,2 @@".data, 10, 8, [" d".data, "+e".data]⟩

/-- The single changed file of `twoHunkStr`. -/
def twoHunkFile : ChangedFile := ⟨"x.py".data, false, [twoHunkH0, twoHunkH1]⟩

/-- A plain-text input with no `diff --git` or `@@` markers (§8.5). -/
def plainTextStr : String :=
  "hello world\nthis is not a diff\njust some text"

deriving instance DecidableEq for Except

theorem startsWithL_head {p : Char} {ps l : List Char}
    (h : startsWithL (p :: ps) l = true) :
    ∃ cs, l = p :: cs ∧ startsWithL ps cs = true := by
  cases l with
  | nil => simp [startsWithL] at h
  | cons c cs =>
    simp only [startsWithL, Bool.and_eq_true, beq_iff_eq] at h
    exact ⟨cs, by rw [h.1], h.2⟩

theorem startsWithL_append_left {p q l : List Char}
    (h : startsWithL (p ++ q) l = true) : startsWithL p l = true := by
  induction p generalizing l with
  | nil => simp [startsWithL]
  | cons x xs ih =>
    obtain ⟨cs, rfl, h2⟩ := startsWithL_head h
    simp only [startsWithL, Bool.and_eq_true, beq_iff_eq]
    exact ⟨by trivial, ih h2⟩

theorem isFileHeader_not_hunkMarker {l : Line} (h : isFileHeader l = true) :
    startsWithL hunkMarker l = false := by
  obtain ⟨cs, rfl, -⟩ := startsWithL_head h
  simp [startsWithL, hunkMarker]

theorem isFileHeader_not_content {l : Line} (h : isFileHeader l = true) :
    isHunkContent l = false := by
  obtain ⟨cs, rfl, -⟩ := startsWithL_head h
  simp [isHunkContent, headIs]

theorem isFileHeader_not_stray {l : Line} (h : isFileHeader l = true) :
    isStray l = false := by
  simp [isStray, isFileHeader_not_content h]

theorem deletedMarker_not_content {l : Line}
    (h : startsWithL deletedFileMarker l = true) : isHunkContent l = false := by
  obtain ⟨cs, rfl, -⟩ := startsWithL_head h
  simp [isHunkContent, headIs]

theorem parseHunkHeader_startsWith {l : Line} {t}
    (h : parseHunkHeader l = some t) : startsWithL hunkMarker l = true := by
  by_cases hs : startsWithL ['@', '@', ' ', '-'] l = true
  · exact @startsWithL_append_left hunkMarker [' ', '-'] l hs
  · exfalso
    rw [parseHunkHeader] at h
    simp only [dropExact, if_neg hs] at h
    simp [Option.bind] at h

theorem headIs_plus_not_minus {l : Line} (h : headIs '+' l = true) :
    headIs '-' l = false := by
  cases l with
  | nil => simp [headIs] at h
  | cons c cs =>
    simp only [headIs, beq_iff_eq] at h
    simp [headIs, h]

theorem exceptMap_eq_ok {ε α β : Type} {f : α → β} {x : Except ε α} {b : β} :
    Except.map f x = .ok b ↔ ∃ a, x = .ok a ∧ b = f a := by
  cases x <;> simp [Except.map, eq_comm]

theorem exceptMap_eq_error {ε α β : Type} {f : α → β} {x : Except ε α}
    {e : ε} : Except.map f x = .error e ↔ x = .error e := by
  cases x <;> simp [Except.map]

theorem posChain_cons_of_head {c : Hunk} {hs : List Hunk}
    (h1 : PosChain hs)
    (h2 : ∀ b t, hs = b :: t →
      c.diff_position + c.lines.length < b.diff_position) :
    PosChain (c :: hs) := by
  cases hs with
  | nil => simp [PosChain]
  | cons b t =>
    simp only [PosChain]
    exact ⟨h2 b t rfl, h1⟩

theorem parseHunks_posChain {ls : List Line} :
    ∀ {n : Nat} {cur : Hunk} {hs : List Hunk},
    cur.diff_position + cur.lines.length ≤ n →
    parseHunks n ls cur = .ok hs →
    (∃ c t, hs = c :: t ∧ c.diff_position = cur.diff_position) ∧
      PosChain hs := by
  induction ls with
  | nil =>
    intro n cur hs _ h
    simp only [parseHunks, Except.ok.injEq] at h
    subst h
    exact ⟨⟨cur, [], rfl, rfl⟩, by simp [PosChain]⟩
  | cons l rest ih =>
    intro n cur hs hb h
    rw [parseHunks] at h
    split at h
    · split at h
      · exact absurd h (by simp)
      · next os oc ns nc ctx heq =>
        rw [exceptMap_eq_ok] at h
        obtain ⟨hs2, h2, rfl⟩ := h
        have hih := ih (by simp) h2
        refine ⟨⟨cur, hs2, rfl, rfl⟩, ?_⟩
        refine posChain_cons_of_head hih.2 ?_
        intro b t hbt
        obtain ⟨c, t2, hshape, hdp⟩ := hih.1
        rw [hbt] at hshape
        cases hshape
        simp only [hdp]
        omega
    · split at h
      · have hih := ih (by simp; omega) h
        obtain ⟨⟨c, t, hshape, hdp⟩, hch⟩ := hih
        exact ⟨⟨c, t, hshape, hdp⟩, hch⟩
      · exact ih (by omega) h

theorem parseHunks_wf {ls : List Line} :
    ∀ {n : Nat} {cur : Hunk} {hs : List Hunk},
    HunkWF cur → parseHunks n ls cur = .ok hs → ∀ h ∈ hs, HunkWF h := by
  induction ls with
  | nil =>
    intro n cur hs hwf h
    simp only [parseHunks, Except.ok.injEq] at h
    subst h
    simpa using hwf
  | cons l rest ih =>
    intro n cur hs hwf h
    rw [parseHunks] at h
    split at h
    · split at h
      · exact absurd h (by simp)
      · next os oc ns nc ctx heq =>
        rw [exceptMap_eq_ok] at h
        obtain ⟨hs2, h2, rfl⟩ := h
        intro x hx
        rcases List.mem_cons.mp hx with rfl | hx2
        · exact hwf
        · exact ih ⟨os, oc, ns, nc, ctx, heq, rfl⟩ h2 x hx2
    · split at h
      · refine ih ?_ h
        obtain ⟨os, oc, ns, nc, ctx, h1, h2⟩ := hwf
        exact ⟨os, oc, ns, nc, ctx, h1, h2⟩
      · exact ih hwf h

theorem parseHunks_sum {ls : List Line} :
    ∀ {n : Nat} {cur : Hunk} {hs : List Hunk},
    parseHunks n ls cur = .ok hs →
    (hs.map (fun h => h.lines.length)).sum =
      cur.lines.length + ls.countP isHunkContent := by
  induction ls with
  | nil =>
    intro n cur hs h
    simp only [parseHunks, Except.ok.injEq] at h
    subst h
    simp
  | cons l rest ih =>
    intro n cur hs h
    rw [parseHunks] at h
    split at h
    · next h1 =>
      split at h
      · exact absurd h (by simp)
      · next os oc ns nc ctx heq =>
        rw [exceptMap_eq_ok] at h
        obtain ⟨hs2, h2, rfl⟩ := h
        have hsum := ih h2
        have hnc : isHunkContent l = false := by
          obtain ⟨cs, rfl, -⟩ := startsWithL_head h1
          simp [isHunkContent, headIs]
        simp [List.countP_cons, hnc, hsum]
    · next h1 =>
      split at h
      · next h2 =>
        rw [ih h]
        simp [List.countP_cons, h2]
        try omega
      · next h2 =>
        rw [ih h]
        have hnc : isHunkContent l = false := by simpa using h2
        simp [List.countP_cons, hnc]

theorem isStray_false_of_not_content {l : Line}
    (h : isHunkContent l = false) : isStray l = false := by
  simp [isStray, h]

theorem parseHunks_error_bad {ls : List Line} :
    ∀ {n : Nat} {cur : Hunk} {e : InvalidDiffFormat},
    parseHunks n ls cur = .error e →
    ∃ l ∈ ls, startsWithL hunkMarker l = true ∧ parseHunkHeader l = none := by
  induction ls with
  | nil => intro n cur e h; simp [parseHunks] at h
  | cons l rest ih =>
    intro n cur e h
    rw [parseHunks] at h
    split at h
    · next h1 =>
      split at h
      · next heq => exact ⟨l, List.mem_cons_self l rest, h1, heq⟩
      · next os oc ns nc ctx heq =>
        rw [exceptMap_eq_error] at h
        obtain ⟨x, hx, h3, h4⟩ := ih h
        exact ⟨x, List.mem_cons_of_mem l hx, h3, h4⟩
    · split at h
      · obtain ⟨x, hx, h3, h4⟩ := ih h
        exact ⟨x, List.mem_cons_of_mem l hx, h3, h4⟩
      · obtain ⟨x, hx, h3, h4⟩ := ih h
        exact ⟨x, List.mem_cons_of_mem l hx, h3, h4⟩

theorem parseHunks_ok_nobad {ls : List Line} :
    ∀ {n : Nat} {cur : Hunk} {hs : List Hunk},
    parseHunks n ls cur = .ok hs →
    ∀ l ∈ ls, startsWithL hunkMarker l = true → parseHunkHeader l ≠ none := by
  induction ls with
  | nil => intro n cur hs _ x hx; simp at hx
  | cons l rest ih =>
    intro n cur hs h x hx hmark
    rw [parseHunks] at h
    split at h
    · next h1 =>
      split at h
      · exact absurd h (by simp)
      · next os oc ns nc ctx heq =>
        rw [exceptMap_eq_ok] at h
        obtain ⟨hs2, h2, rfl⟩ := h
        rcases List.mem_cons.mp hx with rfl | hx2
        · rw [heq]; simp
        · exact ih h2 x hx2 hmark
    · next h1 =>
      rcases List.mem_cons.mp hx with rfl | hx2
      · exact absurd hmark (by simpa using h1)
      · split at h
        · exact ih h x hx2 hmark
        · exact ih h x hx2 hmark

theorem parseMeta_posChain {ls : List Line} :
    ∀ {n : Nat} {d d2 : Bool} {hs : List Hunk},
    parseMeta n ls d = .ok (d2, hs) → PosChain hs := by
  induction ls with
  | nil =>
    intro n d d2 hs h
    simp only [parseMeta, Except.ok.injEq, Prod.mk.injEq] at h
    obtain ⟨-, h2⟩ := h
    subst h2
    simp [PosChain]
  | cons l rest ih =>
    intro n d d2 hs h
    rw [parseMeta] at h
    split at h
    · split at h
      · exact absurd h (by simp)
      · next os oc ns nc ctx heq =>
        rw [exceptMap_eq_ok] at h
        obtain ⟨hs2, h2, h3⟩ := h
        obtain ⟨-, h4⟩ := Prod.mk.injEq .. |>.mp h3
        subst h4
        exact (parseHunks_posChain (by simp) h2).2
    · split at h
      · exact ih h
      · split at h
        · exact ih h
        · split at h
          · exact absurd h (by simp)
          · exact ih h

theorem parseMeta_wf {ls : List Line} :
    ∀ {n : Nat} {d d2 : Bool} {hs : List Hunk},
    parseMeta n ls d = .ok (d2, hs) → ∀ h ∈ hs, HunkWF h := by
  induction ls with
  | nil =>
    intro n d d2 hs h
    simp only [parseMeta, Except.ok.injEq, Prod.mk.injEq] at h
    obtain ⟨-, h2⟩ := h
    subst h2
    simp
  | cons l rest ih =>
    intro n d d2 hs h
    rw [parseMeta] at h
    split at h
    · split at h
      · exact absurd h (by simp)
      · next os oc ns nc ctx heq =>
        rw [exceptMap_eq_ok] at h
        obtain ⟨hs2, h2, h3⟩ := h
        obtain ⟨-, h4⟩ := Prod.mk.injEq .. |>.mp h3
        subst h4
        exact parseHunks_wf ⟨os, oc, ns, nc, ctx, heq, rfl⟩ h2
    · split at h
      · exact ih h
      · split at h
        · exact ih h
        · split at h
          · exact absurd h (by simp)
          · exact ih h

theorem parseMeta_sum {ls : List Line} :
    ∀ {n : Nat} {d d2 : Bool} {hs : List Hunk},
    parseMeta n ls d = .ok (d2, hs) →
    (hs.map (fun h => h.lines.length)).sum = postHeaderContent ls := by
  induction ls with
  | nil =>
    intro n d d2 hs h
    simp only [parseMeta, Except.ok.injEq, Prod.mk.injEq] at h
    obtain ⟨-, h2⟩ := h
    subst h2
    simp [postHeaderContent]
  | cons l rest ih =>
    intro n d d2 hs h
    rw [parseMeta] at h
    split at h
    · next h1 =>
      split at h
      · exact absurd h (by simp)
      · next os oc ns nc ctx heq =>
        rw [exceptMap_eq_ok] at h
        obtain ⟨hs2, h2, h3⟩ := h
        obtain ⟨-, h4⟩ := Prod.mk.injEq .. |>.mp h3
        subst h4
        have := parseHunks_sum h2
        simp only [postHeaderContent, if_pos h1]
        simpa using this
    · next h1 =>
      split at h
      · rw [ih h]
        simp [postHeaderContent, h1]
      · split at h
        · rw [ih h]
          simp [postHeaderContent, h1]
        · split at h
          · exact absurd h (by simp)
          · rw [ih h]
            simp [postHeaderContent, h1]

theorem parseMeta_error {ls : List Line} :
    ∀ {n : Nat} {d : Bool} {e : InvalidDiffFormat},
    parseMeta n ls d = .error e → badHunkIn ls ∨ strayBefore ls := by
  induction ls with
  | nil => intro n d e h; simp [parseMeta] at h
  | cons l rest ih =>
    intro n d e h
    rw [parseMeta] at h
    split at h
    · next h1 =>
      split at h
      · next heq => exact Or.inl ⟨l, List.mem_cons_self l rest, h1, heq⟩
      · next os oc ns nc ctx heq =>
        rw [exceptMap_eq_error] at h
        obtain ⟨x, hx, h3, h4⟩ := parseHunks_error_bad h
        exact Or.inl ⟨x, List.mem_cons_of_mem l hx, h3, h4⟩
    · next h1 =>
      have hm : startsWithL hunkMarker l = false := by simpa using h1
      split at h
      · next h2 =>
        have hstray : isStray l = false :=
          isStray_false_of_not_content (deletedMarker_not_content h2)
        rcases ih h with hb | hs
        · obtain ⟨x, hx, h3, h4⟩ := hb
          exact Or.inl ⟨x, List.mem_cons_of_mem l hx, h3, h4⟩
        · right
          simpa [strayBefore, hm, hstray] using hs
      · next h2 =>
        split at h
        · next h3 =>
          have hstray : isStray l = false := by
            rcases Bool.or_eq_true .. |>.mp h3 with ho | hn
            · simp [isStray, ho]
            · simp [isStray, hn]
          rcases ih h with hb | hs
          · obtain ⟨x, hx, h3, h4⟩ := hb
            exact Or.inl ⟨x, List.mem_cons_of_mem l hx, h3, h4⟩
          · right
            simpa [strayBefore, hm, hstray] using hs
        · next h3 =>
          split at h
          · next h4 =>
            have hstray : isStray l = true := by
              have := Bool.or_eq_false_iff.mp (by simpa using h3)
              simp [isStray, h4, this.1, this.2]
            right
            simp [strayBefore, hm, hstray]
          · next h4 =>
            have hstray : isStray l = false :=
              isStray_false_of_not_content (by simpa using h4)
            rcases ih h with hb | hs
            · obtain ⟨x, hx, h5, h6⟩ := hb
              exact Or.inl ⟨x, List.mem_cons_of_mem l hx, h5, h6⟩
            · right
              simpa [strayBefore, hm, hstray] using hs

theorem parseMeta_ok_not {ls : List Line} :
    ∀ {n : Nat} {d d2 : Bool} {hs : List Hunk},
    parseMeta n ls d = .ok (d2, hs) → ¬badHunkIn ls ∧ ¬strayBefore ls := by
  induction ls with
  | nil =>
    intro n d d2 hs _
    constructor
    · rintro ⟨x, hx, -, -⟩
      simp at hx
    · simp [strayBefore]
  | cons l rest ih =>
    intro n d d2 hs h
    rw [parseMeta] at h
    split at h
    · next h1 =>
      split at h
      · exact absurd h (by simp)
      · next os oc ns nc ctx heq =>
        rw [exceptMap_eq_ok] at h
        obtain ⟨hs2, h2, -⟩ := h
        constructor
        · rintro ⟨x, hx, hm, hn⟩
          rcases List.mem_cons.mp hx with rfl | hx2
          · rw [heq] at hn
            exact Option.noConfusion hn
          · exact parseHunks_ok_nobad h2 x hx2 hm hn
        · simp [strayBefore, h1]
    · next h1 =>
      have hm : startsWithL hunkMarker l = false := by simpa using h1
      have step : ∀ {n2 : Nat} {d3 d4 : Bool} {hs2 : List Hunk},
          parseMeta n2 rest d3 = .ok (d4, hs2) → isStray l = false →
          ¬badHunkIn (l :: rest) ∧ ¬strayBefore (l :: rest) := by
        intro n2 d3 d4 hs2 hrec hstray
        obtain ⟨hbad, hstr⟩ := ih hrec
        constructor
        · rintro ⟨x, hx, hm2, hn⟩
          rcases List.mem_cons.mp hx with rfl | hx2
          · rw [hm] at hm2
            exact Bool.noConfusion hm2
          · exact hbad ⟨x, hx2, hm2, hn⟩
        · intro hsb
          exact hstr (by simpa [strayBefore, hm, hstray] using hsb)
      split at h
      · next h2 =>
        exact step h (isStray_false_of_not_content (deletedMarker_not_content h2))
      · next h2 =>
        split at h
        · next h3 =>
          refine step h ?_
          rcases Bool.or_eq_true .. |>.mp h3 with ho | hn
          · simp [isStray, ho]
          · simp [isStray, hn]
        · next h3 =>
          split at h
          · exact absurd h (by simp)
          · next h4 =>
            exact step h (isStray_false_of_not_content (by simpa using h4))

theorem splitGo_ne_nil {ls : List Line} :
    ∀ {n s : Nat} {acc : List Line}, splitGo n ls s acc ≠ [] := by
  induction ls with
  | nil => intro n s acc; simp [splitGo]
  | cons l rest ih =>
    intro n s acc
    rw [splitGo]
    split
    · simp
    · exact ih

theorem splitSections_eq_nil_iff {ls : List Line} :
    ∀ {n : Nat},
    splitSections n ls = [] ↔ ∀ l ∈ ls, isFileHeader l = false := by
  induction ls with
  | nil => intro n; simp [splitSections]
  | cons l rest ih =>
    intro n
    rw [splitSections]
    split
    · next h1 =>
      constructor
      · intro h
        exact absurd h splitGo_ne_nil
      · intro h
        rw [h l (List.mem_cons_self l rest)] at h1
        exact Bool.noConfusion h1
    · next h1 =>
      have hm : isFileHeader l = false := by simpa using h1
      rw [ih]
      simp [List.forall_mem_cons, hm]

theorem splitGo_head {ls : List Line} :
    ∀ {n s : Nat} {acc : List Line} {hd : Line} {tl : List Line},
    acc = hd :: tl → isFileHeader hd = true →
    ∀ sec ∈ splitGo n ls s acc,
      ∃ h2 t2, sec.2 = h2 :: t2 ∧ isFileHeader h2 = true := by
  induction ls with
  | nil =>
    intro n s acc hd tl hacc hh sec hsec
    have : sec = (s, acc) := List.mem_singleton.mp (by simpa [splitGo] using hsec)
    subst this
    exact ⟨hd, tl, by simp [hacc], hh⟩
  | cons l rest ih =>
    intro n s acc hd tl hacc hh sec hsec
    rw [splitGo] at hsec
    split at hsec
    · next h1 =>
      rcases List.mem_cons.mp hsec with rfl | h2
      · exact ⟨hd, tl, by simp [hacc], hh⟩
      · exact ih rfl h1 sec h2
    · exact ih (by rw [hacc]; rfl) hh sec hsec

theorem splitSections_head {ls : List Line} :
    ∀ {n : Nat} {sec : Nat × List Line},
    sec ∈ splitSections n ls →
    ∃ h2 t2, sec.2 = h2 :: t2 ∧ isFileHeader h2 = true := by
  induction ls with
  | nil => intro n sec h; simp [splitSections] at h
  | cons l rest ih =>
    intro n sec h
    rw [splitSections] at h
    split at h
    · next h1 => exact splitGo_head rfl h1 sec h
    · exact ih h

theorem parseSection_ok_posChain {s : Nat × List Line} {f : ChangedFile}
    (h : parseSection s = .ok f) : PosChain f.hunks := by
  obtain ⟨n, ls⟩ := s
  cases ls with
  | nil => simp [parseSection] at h
  | cons hdr body =>
    rw [parseSection, exceptMap_eq_ok] at h
    obtain ⟨⟨d2, hs⟩, h2, rfl⟩ := h
    exact parseMeta_posChain h2

theorem parseSection_ok_wf {s : Nat × List Line} {f : ChangedFile}
    (h : parseSection s = .ok f) : ∀ x ∈ f.hunks, HunkWF x := by
  obtain ⟨n, ls⟩ := s
  cases ls with
  | nil => simp [parseSection] at h
  | cons hdr body =>
    rw [parseSection, exceptMap_eq_ok] at h
    obtain ⟨⟨d2, hs⟩, h2, rfl⟩ := h
    exact parseMeta_wf h2

theorem parseSection_ok_sum {n : Nat} {hdr : Line} {body : List Line}
    {f : ChangedFile} (hh : isFileHeader hdr = true)
    (h : parseSection (n, hdr :: body) = .ok f) :
    (f.hunks.map (fun x => x.lines.length)).sum =
      postHeaderContent (hdr :: body) := by
  rw [parseSection, exceptMap_eq_ok] at h
  obtain ⟨⟨d2, hs⟩, h2, rfl⟩ := h
  have hsum := parseMeta_sum h2
  simp only [postHeaderContent, isFileHeader_not_hunkMarker hh]
  simpa using hsum

theorem parseSection_error {n : Nat} {hdr : Line} {body : List Line}
    {e : InvalidDiffFormat} (hh : isFileHeader hdr = true)
    (h : parseSection (n, hdr :: body) = .error e) :
    badHunkIn (hdr :: body) ∨ strayBefore (hdr :: body) := by
  rw [parseSection, exceptMap_eq_error] at h
  rcases parseMeta_error h with hb | hs
  · obtain ⟨x, hx, h3, h4⟩ := hb
    exact Or.inl ⟨x, List.mem_cons_of_mem hdr hx, h3, h4⟩
  · right
    simpa [strayBefore, isFileHeader_not_hunkMarker hh,
      isFileHeader_not_stray hh] using hs

theorem parseSection_ok_not {n : Nat} {hdr : Line} {body : List Line}
    {f : ChangedFile} (hh : isFileHeader hdr = true)
    (h : parseSection (n, hdr :: body) = .ok f) :
    ¬badHunkIn (hdr :: body) ∧ ¬strayBefore (hdr :: body) := by
  rw [parseSection, exceptMap_eq_ok] at h
  obtain ⟨⟨d2, hs⟩, h2, -⟩ := h
  obtain ⟨hb, hs2⟩ := parseMeta_ok_not h2
  constructor
  · rintro ⟨x, hx, h3, h4⟩
    rcases List.mem_cons.mp hx with rfl | hx2
    · rw [isFileHeader_not_hunkMarker hh] at h3
      exact Bool.noConfusion h3
    · exact hb ⟨x, hx2, h3, h4⟩
  · intro hsb
    exact hs2 (by simpa [strayBefore, isFileHeader_not_hunkMarker hh,
      isFileHeader_not_stray hh] using hsb)

theorem mapSections_ok_forall {secs : List (Nat × List Line)} :
    ∀ {fs : List ChangedFile}, mapSections secs = .ok fs →
    ∀ sec ∈ secs, ∃ f, parseSection sec = .ok f := by
  induction secs with
  | nil => intro fs _ sec hsec; simp at hsec
  | cons s rest ih =>
    intro fs h sec hsec
    rw [mapSections] at h
    split at h
    · exact absurd h (by simp)
    · next f hps =>
      split at h
      · exact absurd h (by simp)
      · next fs2 hms =>
        rcases List.mem_cons.mp hsec with rfl | h2
        · exact ⟨f, hps⟩
        · exact ih hms sec h2

theorem mapSections_ok_mem {secs : List (Nat × List Line)} :
    ∀ {fs : List ChangedFile}, mapSections secs = .ok fs →
    ∀ f ∈ fs, ∃ sec ∈ secs, parseSection sec = .ok f := by
  induction secs with
  | nil =>
    intro fs h f hf
    simp only [mapSections, Except.ok.injEq] at h
    subst h
    simp at hf
  | cons s rest ih =>
    intro fs h f hf
    rw [mapSections] at h
    split at h
    · exact absurd h (by simp)
    · next f2 hps =>
      split at h
      · exact absurd h (by simp)
      · next fs2 hms =>
        simp only [Except.ok.injEq] at h
        subst h
        rcases List.mem_cons.mp hf with rfl | h2
        · exact ⟨s, List.mem_cons_self s rest, hps⟩
        · obtain ⟨sec, hsec, hok⟩ := ih hms f h2
          exact ⟨sec, List.mem_cons_of_mem s hsec, hok⟩

theorem mapSections_error {secs : List (Nat × List Line)} :
    ∀ {e : InvalidDiffFormat}, mapSections secs = .error e →
    ∃ sec ∈ secs, ∃ e2, parseSection sec = .error e2 := by
  induction secs with
  | nil => intro e h; simp [mapSections] at h
  | cons s rest ih =>
    intro e h
    rw [mapSections] at h
    split at h
    · next e2 hps =>
      exact ⟨s, List.mem_cons_self s rest, e2, hps⟩
    · next f hps =>
      split at h
      · next e2 hms =>
        obtain ⟨sec, hsec, e3, herr⟩ := ih hms
        exact ⟨sec, List.mem_cons_of_mem s hsec, e3, herr⟩
      · exact absurd h (by simp)

theorem mapSections_sum {secs : List (Nat × List Line)} :
    ∀ {fs : List ChangedFile}, mapSections secs = .ok fs →
    (∀ sec ∈ secs, ∃ h2 t2, sec.2 = h2 :: t2 ∧ isFileHeader h2 = true) →
    (fs.map (fun f => (f.hunks.map (fun x => x.lines.length)).sum)).sum =
      sectionContentCount secs := by
  induction secs with
  | nil =>
    intro fs h _
    simp only [mapSections, Except.ok.injEq] at h
    subst h
    simp [sectionContentCount]
  | cons s rest ih =>
    intro fs h hheads
    rw [mapSections] at h
    split at h
    · exact absurd h (by simp)
    · next f hps =>
      split at h
      · exact absurd h (by simp)
      · next fs2 hms =>
        simp only [Except.ok.injEq] at h
        subst h
        obtain ⟨hd, tl, hsec2, hh⟩ := hheads s (List.mem_cons_self s rest)
        obtain ⟨n, ls⟩ := s
        simp only at hsec2
        subst hsec2
        have hsum := parseSection_ok_sum hh hps
        have hrest := ih hms (fun sec hsec =>
          hheads sec (List.mem_cons_of_mem _ hsec))
        simp only [List.map_cons, List.sum_cons, sectionContentCount] at *
        rw [hsum, hrest]

theorem parseDiff_ok_elim {input : List Line} {d : Diff}
    (h : parseDiff input = .ok d) :
    ∃ fs, mapSections (splitSections 0 input) = .ok fs ∧ d = Diff.mk fs := by
  simp only [parseDiff] at h
  split at h
  · exact absurd h (by simp)
  · rw [exceptMap_eq_ok] at h
    obtain ⟨fs, h1, h2⟩ := h
    exact ⟨fs, h1, h2⟩

theorem parseDiff_ok_file {input : List Line} {d : Diff} {f : ChangedFile}
    (h : parseDiff input = .ok d) (hf : f ∈ d.files) :
    ∃ sec ∈ splitSections 0 input, parseSection sec = .ok f := by
  obtain ⟨fs, h1, h2⟩ := parseDiff_ok_elim h
  subst h2
  exact mapSections_ok_mem h1 f hf

theorem parseDiff_posChain {input : List Line} {d : Diff}
    (h : parseDiff input = .ok d) : ∀ f ∈ d.files, PosChain f.hunks := by
  intro f hf
  obtain ⟨sec, -, hok⟩ := parseDiff_ok_file h hf
  exact parseSection_ok_posChain hok

theorem parseDiff_wf {input : List Line} {d : Diff}
    (h : parseDiff input = .ok d) :
    ∀ f ∈ d.files, ∀ x ∈ f.hunks, HunkWF x := by
  intro f hf
  obtain ⟨sec, -, hok⟩ := parseDiff_ok_file h hf
  exact parseSection_ok_wf hok

theorem posChain_get {l : List Hunk} (hch : PosChain l) (k : Nat)
    (hk : k < l.length) (hk1 : k + 1 < l.length) :
    (l.get ⟨k, hk⟩).diff_position + (l.get ⟨k, hk⟩).lines.length <
      (l.get ⟨k + 1, hk1⟩).diff_position := by
  induction l generalizing k with
  | nil => simp at hk
  | cons a t ih =>
    cases t with
    | nil => simp at hk1
    | cons b t2 =>
      obtain ⟨h1, h2⟩ := hch
      cases k with
      | zero => simpa using h1
      | succ k2 =>
        have := ih h2 k2 (by simpa using hk) (by simpa using hk1)
        simpa using this

theorem posChain_lt {l : List Hunk} (hch : PosChain l) :
    ∀ (k k' : Nat) (hk : k < l.length) (hk' : k' < l.length), k < k' →
    (l.get ⟨k, hk⟩).diff_position + (l.get ⟨k, hk⟩).lines.length <
      (l.get ⟨k', hk'⟩).diff_position := by
  intro k k' hk hk'
  induction k' with
  | zero => omega
  | succ k2 ih =>
    intro hlt
    have hk2 : k2 < l.length := by omega
    rcases Nat.lt_succ_iff_lt_or_eq.mp hlt with h | h
    · have prev := ih hk2 h
      have step := posChain_get hch k2 hk2 hk'
      omega
    · subst h
      exact posChain_get hch k hk hk'

theorem count_changes_go_eq {ls : List Line} :
    ∀ {a d : Nat}, count_changes_go ls a d =
      (a + ls.countP (headIs '+'), d + ls.countP (headIs '-')) := by
  induction ls with
  | nil => intro a d; simp [count_changes_go]
  | cons l rest ih =>
    intro a d
    rw [count_changes_go]
    split
    · next h1 =>
      rw [ih, Prod.mk.injEq]
      have h2 := headIs_plus_not_minus h1
      simp [List.countP_cons, h1, h2]
      omega
    · next h1 =>
      have h1f : headIs '+' l = false := by simpa using h1
      split
      · next h2 =>
        rw [ih, Prod.mk.injEq]
        simp [List.countP_cons, h1f, h2]
        omega
      · next h2 =>
        have h2f : headIs '-' l = false := by simpa using h2
        rw [ih]
        simp [List.countP_cons, h1f, h2f]

theorem parseFails_iff {input : List Line} :
    parseFails input ↔
      ((∀ l ∈ input, isFileHeader l = false) ∨
        ∃ sec ∈ splitSections 0 input, badHunkIn sec.2 ∨ strayBefore sec.2) := by
  constructor
  · rintro ⟨e, h⟩
    simp only [parseDiff] at h
    split at h
    · next hempty =>
      left
      exact splitSections_eq_nil_iff.mp (by simpa using hempty)
    · next hempty =>
      rw [exceptMap_eq_error] at h
      obtain ⟨sec, hsec, e2, herr⟩ := mapSections_error h
      right
      obtain ⟨hd, tl, h2, hh⟩ := splitSections_head hsec
      obtain ⟨n, ls⟩ := sec
      simp only at h2
      subst h2
      exact ⟨(n, hd :: tl), hsec, parseSection_error hh herr⟩
  · intro hcond
    cases hpd : parseDiff input with
    | error e => exact ⟨e, hpd⟩
    | ok d =>
      exfalso
      rcases hcond with hA | ⟨sec, hsec, hbad⟩
      · obtain ⟨fs, h1, -⟩ := parseDiff_ok_elim hpd
        have hnil : splitSections 0 input = [] :=
          splitSections_eq_nil_iff.mpr hA
        rw [hnil] at h1
        simp only [parseDiff, hnil] at hpd
        simp at hpd
      · obtain ⟨fs, h1, -⟩ := parseDiff_ok_elim hpd
        obtain ⟨f, hok⟩ := mapSections_ok_forall h1 sec hsec
        obtain ⟨hd, tl, h2, hh⟩ := splitSections_head hsec
        obtain ⟨n, ls⟩ := sec
        simp only at h2
        subst h2
        obtain ⟨hnb, hns⟩ := parseSection_ok_not hh hok
        rcases hbad with hb | hs
        · exact hnb hb
        · exact hns hs

theorem parseDiff_line_count {input : List Line} {d : Diff}
    (h : parseDiff input = .ok d) :
    totalHunkLines d = sectionContentCount (splitSections 0 input) := by
  obtain ⟨fs, h1, h2⟩ := parseDiff_ok_elim h
  subst h2
  have hheads : ∀ sec ∈ splitSections 0 input,
      ∃ h2 t2, sec.2 = h2 :: t2 ∧ isFileHeader h2 = true :=
    fun sec hsec => splitSections_head hsec
  have := mapSections_sum h1 hheads
  simpa [totalHunkLines] using this

theorem comment_position_ok_elim {h : Hunk} {i p : Int}
    (hc : comment_position h i = .ok p) :
    0 ≤ i ∧ i < (h.lines.length : Int) ∧
      p = (h.diff_position : Int) + i + 1 := by
  rw [comment_position] at hc
  split at hc
  · exact absurd hc (by simp)
  · next hcond =>
    push_neg at hcond
    obtain ⟨h1, h2⟩ := hcond
    refine ⟨by omega, h2, ?_⟩
    simpa using hc.symm

theorem run_pane_bounds_aux (len : Nat) (evs : List PaneEvent) :
    ∀ cl : Int, 0 ≤ cl → cl < (len : Int) →
    0 ≤ evs.foldl (pane_step len) cl ∧
      evs.foldl (pane_step len) cl < (len : Int) := by
  induction evs with
  | nil => intro cl h0 h1; simpa using ⟨h0, h1⟩
  | cons e rest ih =>
    intro cl h0 h1
    rw [List.foldl_cons]
    have hstep : 0 ≤ pane_step len cl e ∧ pane_step len cl e < (len : Int) := by
      cases e with
      | down =>
        simp only [pane_step, action_line_down]
        split <;> omega
      | up =>
        simp only [pane_step, action_line_up]
        split <;> omega
      | scroll est =>
        simp only [pane_step, watch_scroll_y_update]
        split <;> omega
    exact ih _ hstep.1 hstep.2

/-- C1: for every hunk `h` and every line index `i` with
`0 ≤ i < len(h.lines)`, the review-comment position mapper returns exactly
`h.diff_position + i + 1`, and that is also the value the submission code
places in the API payload. -/
theorem claim_C1_position_formula (h : Hunk) (i : Int)
    (h0 : 0 ≤ i) (hlen : i < (h.lines.length : Int)) :
    comment_position h i = .ok ((h.diff_position : Int) + i + 1) ∧
    ∀ (fn lt bd : Line),
      (build_review_comments [⟨h, fn, i, lt, bd⟩]).map (fun c => c.position) =
        [(h.diff_position : Int) + i + 1] := by
  constructor
  · rw [comment_position, if_neg (by omega)]
  · intro fn lt bd
    simp [build_review_comments, submission_position]

/-- Witness for C1 at the §8.6 hunk with `i = 1`. -/
theorem claim_C1_witness :
    (0 : Int) ≤ 1 ∧ (1 : Int) < (hunk86.lines.length : Int) ∧
    (comment_position hunk86 1 = .ok ((hunk86.diff_position : Int) + 1 + 1) ∧
      ∀ (fn lt bd : Line),
        (build_review_comments [⟨hunk86, fn, 1, lt, bd⟩]).map
          (fun c => c.position) = [(hunk86.diff_position : Int) + 1 + 1]) :=
  ⟨by decide, by decide,
    claim_C1_position_formula hunk86 1 (by decide) (by decide)⟩

/-- C2: the two review-submission paths compute inconsistent position
arithmetic: for the §8.6 hunk (whose header carries
`source_start = 1`, `target_start = 1`) at line index 0, the legacy path
yields `2` on both sides while the newer path yields
`diff_position + 0 + 1 = 6`. -/
theorem claim_C2_paths_inconsistent :
    parse_diff_from_str diff86Str = .ok ⟨[file86]⟩ ∧
    parseHunkHeader hunk86.header = some (1, 3, 1, 4, []) ∧
    (0 : Int) ≤ 0 ∧ (0 : Int) < (hunk86.lines.length : Int) ∧
    legacy_review_position .BEFORE 1 1 0 ≠ submission_position hunk86 0 ∧
    legacy_review_position .AFTER 1 1 0 ≠ submission_position hunk86 0 := by
  decide

/-- C3: `parse` fails with `InvalidDiffFormat` exactly when the input has
no recognizable file header, some file section has an `@@` line that does
not match the hunk-header pattern, or some file section has a hunk line
before any hunk header; in particular a plain-text input fails. -/
theorem claim_C3_invalid_diff_rejection :
    (∀ input : List Line,
      parseFails input ↔
        ((∀ l ∈ input, isFileHeader l = false) ∨
          ∃ sec ∈ splitSections 0 input,
            badHunkIn sec.2 ∨ strayBefore sec.2)) ∧
    parse_diff_from_str plainTextStr = .error .noFileHeader :=
  ⟨fun _ => parseFails_iff, by decide⟩

/-- C4: `_count_changes_in_hunk` returns the pair (number of `+`-prefixed
lines, number of `-`-prefixed lines), counting context lines as neither;
it is total, and an empty hunk yields `(0, 0)`. -/
theorem claim_C4_count_changes (h : Hunk) :
    count_changes_in_hunk h =
      (h.lines.countP (headIs '+'), h.lines.countP (headIs '-')) ∧
    ∀ (hdr : Line) (fsl dp : Nat),
      count_changes_in_hunk ⟨hdr, fsl, dp, []⟩ = (0, 0) := by
  constructor
  · rw [count_changes_in_hunk, count_changes_go_eq]
    simp
  · intro hdr fsl dp
    rfl

/-- C5: parsing the concrete §8.6 diff yields exactly one `ChangedFile`
with path `foo.py`, `deleted = false`, one hunk with
`file_start_line = 1` and exactly the four content lines in order, and
`_count_changes_in_hunk` on that hunk returns `(2, 1)`. -/
theorem claim_C5_concrete_scenario :
    parse_diff_from_str diff86Str = .ok ⟨[file86]⟩ ∧
    file86.path = "foo.py".data ∧ file86.deleted = false ∧
    file86.hunks = [hunk86] ∧ hunk86.file_start_line = 1 ∧
    hunk86.lines = [" def f():".data, "-    return 1".data,
      "+    return 2".data, "+    # comment".data] ∧
    count_changes_in_hunk hunk86 = (2, 1) := by
  decide

/-- C6: within a single file of a successfully parsed diff, with hunks in
order of appearance, `comment_position` values are strictly increasing as
`(hunk_index, line_index_within_hunk)` increases lexicographically. -/
theorem claim_C6_position_monotonicity (input : List Line) (d : Diff)
    (hp : parseDiff input = .ok d) (f : ChangedFile) (hf : f ∈ d.files)
    (k k' : Nat) (hk : k < f.hunks.length) (hk' : k' < f.hunks.length)
    (i i' p p' : Int)
    (h1 : comment_position (f.hunks.get ⟨k, hk⟩) i = .ok p)
    (h2 : comment_position (f.hunks.get ⟨k', hk'⟩) i' = .ok p')
    (hlex : k < k' ∨ (k = k' ∧ i < i')) : p < p' := by
  obtain ⟨hi0, hilen, hpv⟩ := comment_position_ok_elim h1
  obtain ⟨hi0x, hilenx, hpvx⟩ := comment_position_ok_elim h2
  have hch := parseDiff_posChain hp f hf
  rcases hlex with hkk | ⟨hke, hii⟩
  · have hstep := posChain_lt hch k k' hk hk' hkk
    omega
  · subst hke
    have hgg : f.hunks.get ⟨k, hk'⟩ = f.hunks.get ⟨k, hk⟩ := rfl
    rw [hgg] at hpvx
    omega

/-- Witness for C6 on the two-hunk diff: positions 7 (hunk 0, line 2) and
9 (hunk 1, line 0). -/
theorem claim_C6_witness :
    parseDiff (splitLines twoHunkStr.data) = .ok ⟨[twoHunkFile]⟩ ∧
    comment_position (twoHunkFile.hunks.get ⟨0, by decide⟩) 2 = .ok 7 ∧
    comment_position (twoHunkFile.hunks.get ⟨1, by decide⟩) 0 = .ok 9 ∧
    (7 : Int) < 9 :=
  ⟨by decide, by decide, by decide,
    claim_C6_position_monotonicity (splitLines twoHunkStr.data)
      ⟨[twoHunkFile]⟩ (by decide) twoHunkFile (by decide) 0 1 (by decide)
      (by decide) 2 0 7 9 (by decide) (by decide) (Or.inl (by decide))⟩

/-- C7 counterexample: on the §8.6 diff the hunks hold 4 lines in total,
but the raw input has 6 lines prefixed with `+`, `-` or space (the
`--- a/foo.py` and `+++ b/foo.py` file-metadata lines are prefixed but are
not hunk lines), so the claimed equality fails. -/
theorem claim_C7_counterexample :
    parse_diff_from_str diff86Str = .ok ⟨[file86]⟩ ∧
    totalHunkLines ⟨[file86]⟩ = 4 ∧
    (splitLines diff86Str.data).countP isHunkContent = 6 ∧
    ¬ totalHunkLines ⟨[file86]⟩ =
        (splitLines diff86Str.data).countP isHunkContent := by
  decide

/-- C7 amended: for every successfully parsed diff, the total number of
lines across all hunks of all files equals the number of
`+`/`-`/space-prefixed lines that occur, within each file section, after
that section's first hunk-header line. -/
theorem claim_C7_amended_line_count (input : List Line) (d : Diff)
    (h : parseDiff input = .ok d) :
    totalHunkLines d = sectionContentCount (splitSections 0 input) :=
  parseDiff_line_count h

/-- Witness for the amended C7 on the §8.6 diff (both sides are 4). -/
theorem claim_C7_witness :
    parseDiff (splitLines diff86Str.data) = .ok ⟨[file86]⟩ ∧
    totalHunkLines ⟨[file86]⟩ =
      sectionContentCount (splitSections 0 (splitLines diff86Str.data)) :=
  ⟨by decide,
    claim_C7_amended_line_count (splitLines diff86Str.data) ⟨[file86]⟩
      (by decide)⟩

/-- C8: hunk boundaries are recognized exactly by lines matching the
`@@ -a[,b] +c[,d] @@ctx` pattern — every parsed hunk's header matches the
pattern and its `file_start_line` is the pattern's `new_start`; a matching
line inside a hunk always starts a new hunk; omitted counts default to 1;
a non-matching `@@` line is rejected by the pattern. -/
theorem claim_C8_hunk_header_recognition :
    (∀ (input : List Line) (d : Diff), parseDiff input = .ok d →
      ∀ f ∈ d.files, ∀ h ∈ f.hunks,
        ∃ os oc ns nc ctx,
          parseHunkHeader h.header = some (os, oc, ns, nc, ctx) ∧
            h.file_start_line = ns) ∧
    (∀ (n : Nat) (l : Line) (rest : List Line) (cur : Hunk)
        (os oc ns nc : Nat) (ctx : Line),
      parseHunkHeader l = some (os, oc, ns, nc, ctx) →
      parseHunks n (l :: rest) cur =
        Except.map (fun hs => cur :: hs)
          (parseHunks (n + 1) rest ⟨l, ns, n + 1, []⟩)) ∧
    parseHunkHeader "@@ -3 +7 @@".data = some (3, 1, 7, 1, []) ∧
    parseHunkHeader "@@ -10,5 +12,7 @@ foo".data =
      some (10, 5, 12, 7, "foo".data) ∧
    parseHunkHeader "@@ not a hunk header".data = none := by
  refine ⟨?_, ?_, by decide, by decide, by decide⟩
  · intro input d hp f hf h hh
    exact parseDiff_wf hp f hf h hh
  · intro n l rest cur os oc ns nc ctx heq
    rw [parseHunks, if_pos (parseHunkHeader_startsWith heq), heq]

/-- Witness for C8 at the §8.6 diff. -/
theorem claim_C8_witness :
    parseDiff (splitLines diff86Str.data) = .ok ⟨[file86]⟩ ∧
    (∃ os oc ns nc ctx,
      parseHunkHeader hunk86.header = some (os, oc, ns, nc, ctx) ∧
        hunk86.file_start_line = ns) :=
  ⟨by decide,
    claim_C8_hunk_header_recognition.1 (splitLines diff86Str.data)
      ⟨[file86]⟩ (by decide) file86 (by decide) hunk86 (by decide)⟩

/-- C9: `comment_position` fails with `OutOfRangeLine` iff the index is
negative or at least `len(hunk.lines)`; it fails at `len(hunk.lines)` and
succeeds at the last valid index; on success it returns the same value the
submission code computes. -/
theorem claim_C9_out_of_range_guard (h : Hunk) (i : Int) :
    (comment_position h i = .error .outOfRange ↔
      (i < 0 ∨ (h.lines.length : Int) ≤ i)) ∧
    comment_position h (h.lines.length : Int) = .error .outOfRange ∧
    (0 < h.lines.length →
      comment_position h ((h.lines.length : Int) - 1) =
        .ok ((h.diff_position : Int) + h.lines.length)) ∧
    (0 ≤ i → i < (h.lines.length : Int) →
      comment_position h i = .ok (submission_position h i)) := by
  refine ⟨⟨?_, ?_⟩, ?_, ?_, ?_⟩
  · intro hc
    by_contra hn
    rw [comment_position, if_neg hn] at hc
    exact absurd hc (by simp)
  · intro hc
    rw [comment_position, if_pos hc]
  · rw [comment_position, if_pos (by omega)]
  · intro hpos
    rw [comment_position, if_neg (by omega)]
    congr 1
    omega
  · intro hi0 hilen
    rw [comment_position, if_neg (by omega)]
    rfl

/-- Witness for C9 at the §8.6 hunk: the guard rejects index 4 and
accepts the last valid index 3. -/
theorem claim_C9_witness :
    0 < hunk86.lines.length ∧
    comment_position hunk86 ((hunk86.lines.length : Int) - 1) =
      .ok ((hunk86.diff_position : Int) + hunk86.lines.length) ∧
    comment_position hunk86 (hunk86.lines.length : Int) =
      .error .outOfRange :=
  ⟨by decide, (claim_C9_out_of_range_guard hunk86 0).2.2.1 (by decide),
    (claim_C9_out_of_range_guard hunk86 0).2.1⟩

/-- C10: for a pane whose hunk has at least one line, `current_line`
starts at 0 and stays within `[0, len(hunk.lines) - 1]` under every
sequence of line-down, line-up and scroll updates, so every
`TriggerAddComment` message carries a valid 0-based index. -/
theorem claim_C10_current_line_invariant (lines : List Line)
    (evs : List PaneEvent) (hne : lines ≠ []) :
    run_pane lines.length [] = 0 ∧
    0 ≤ run_pane lines.length evs ∧
    run_pane lines.length evs < (lines.length : Int) ∧
    action_add_comment_line_number (run_pane lines.length evs) =
      run_pane lines.length evs := by
  have hlen : 0 < lines.length := List.length_pos.mpr hne
  have hb := run_pane_bounds_aux lines.length evs 0 le_rfl
    (by exact_mod_cast hlen)
  exact ⟨rfl, hb.1, hb.2, rfl⟩

/-- Witness for C10 on a one-line hunk and a three-event history. -/
theorem claim_C10_witness :
    ([" a".data] : List Line) ≠ [] ∧
    0 ≤ run_pane 1 [PaneEvent.down, PaneEvent.scroll 5, PaneEvent.up] ∧
    run_pane 1 [PaneEvent.down, PaneEvent.scroll 5, PaneEvent.up] < 1 := by
  refine ⟨by decide, ?_, ?_⟩
  · exact (claim_C10_current_line_invariant [" a".data]
      [PaneEvent.down, PaneEvent.scroll 5, PaneEvent.up] (by decide)).2.1
  · exact (claim_C10_current_line_invariant [" a".data]
      [PaneEvent.down, PaneEvent.scroll 5, PaneEvent.up] (by decide)).2.2.1
